import Mathlib

/-!
Verification development for the POMCP online planner repository.

The repository ships the cellar-domain header (`src/cellar.h`) together with a
build manifest naming the engine translation units; the engine bodies
themselves are not part of the sources, so the engine operations below are
modelled from the specification's description of POMCP (statistics, UCB
selection, SelectAction, Update, particle invigoration, simulation, rollout,
and the PGS rollout variant), while the cellar data structures are translated
directly from the header.
-/

namespace POMCP

/-- Per-action statistics of a root child as `SelectAction` reads them:
a visit count and a mean value. -/
structure QStat where
  count : Nat
  mean : ℚ
deriving DecidableEq, Repr

/-- Lexicographic strict comparison on (primary rational key, secondary
natural key); used for "largest mean, ties broken by visit count". -/
def keyLT (a b : ℚ × Nat) : Prop :=
  a.1 < b.1 ∨ (a.1 = b.1 ∧ a.2 < b.2)

instance keyLT.dec (a b : ℚ × Nat) : Decidable (keyLT a b) := by
  unfold keyLT; exact inferInstance

/-- Modelled from the spec: the scan an argmax selection performs over the
enumerated children, keeping the current best and replacing it only on a
strict improvement of the key, so that the earliest (lowest-index) child
wins all ties. -/
def bestScan {α : Type} (key : Nat × α → ℚ × Nat) (pred : Nat × α → Bool) :
    List (Nat × α) → Option (Nat × (ℚ × Nat)) → Option (Nat × (ℚ × Nat))
  | [], acc => acc
  | p :: rest, acc =>
    bestScan key pred rest
      (if pred p then
        match acc with
        | none => some (p.1, key p)
        | some (j, k) => if keyLT k (key p) then some (p.1, key p) else some (j, k)
      else acc)

/-- Modelled from the spec: the uniform random source with seeding (a linear
congruential generator standing in for the engine-owned RNG). -/
def rngNext (g : Nat) : Nat := (g * 1103515245 + 12345) % 4294967296

/-- Modelled from the spec: draw a uniform index below `n`, returning the
index and the advanced generator state. -/
def randBelow (g n : Nat) : Nat × Nat :=
  let g' := rngNext g
  (g' % n, g')

/-- Modelled from the spec: the first action (in declaration order) whose
child statistic is unvisited, starting the numbering at `i`. -/
def firstUnvisited : List QStat → Nat → Option Nat
  | [], _ => none
  | q :: rest, i => if q.count = 0 then some i else firstUnvisited rest (i + 1)

/-- Modelled from the spec: the UCB1 value of one child — its mean plus the
exploration term `c * bonus (count v) (count q)`, where `bonus` stands for
the `sqrt(log(count(v)) / count(Q(v,a)))` factor of the specification. -/
def ucbScore (c : ℚ) (bonus : Nat → Nat → ℚ) (vc : Nat) (q : QStat) : ℚ :=
  q.mean + c * bonus vc q.count

/-- Modelled from the spec: UCB1 child selection — unvisited actions are
preferred in declaration order, otherwise the action of maximal UCB value,
ties broken by the lowest action index. -/
def ucbSelect (c : ℚ) (bonus : Nat → Nat → ℚ) (vc : Nat) (stats : List QStat) : Option Nat :=
  match firstUnvisited stats 0 with
  | some i => some i
  | none =>
    (bestScan (fun p => (ucbScore c bonus vc p.2, 0)) (fun _ => true) stats.enum none).map
      Prod.fst

/-- Modelled from the spec: a VNode — backed-up statistic (count, total), a
particle belief, and one QNode per action, each QNode holding its own
statistic and a sparse list of child VNodes indexed by observation. -/
inductive VTree (σ : Type) : Type where
  | node (cnt : Nat) (tot : ℚ) (belief : List σ)
      (qs : List (Nat × ℚ × List (Option (VTree σ)))) : VTree σ

variable {σ : Type}

def VTree.cnt : VTree σ → Nat
  | .node c _ _ _ => c

def VTree.tot : VTree σ → ℚ
  | .node _ t _ _ => t

def VTree.belief : VTree σ → List σ
  | .node _ _ b _ => b

def VTree.qs : VTree σ → List (Nat × ℚ × List (Option (VTree σ)))
  | .node _ _ _ q => q

/-- The per-action statistics a VNode presents to action selection; the mean
is guarded against a zero count. -/
def qstats (t : VTree σ) : List QStat :=
  t.qs.map (fun q => ⟨q.1, if q.1 = 0 then 0 else q.2.1 / (q.1 : ℚ)⟩)

/-- Modelled from the spec: a freshly initialized VNode with one zeroed QNode
per action. -/
def newVNode (numActions : Nat) (bel : List σ) : VTree σ :=
  .node 0 0 bel (List.replicate numActions (0, 0, []))

/-- The child VNode under action `a` and observation `o`, when present. -/
def getChild (t : VTree σ) (a o : Nat) : Option (VTree σ) :=
  ((t.qs.get? a).bind (fun q => q.2.2.get? o)).join

/-- Write observation slot `o` of a sparse child list, padding with absent
slots as needed. -/
def setObs (l : List (Option (VTree σ))) (o : Nat) (c : VTree σ) :
    List (Option (VTree σ)) :=
  (l ++ List.replicate (o + 1 - l.length) none).set o (some c)

/-- Store `c` as the child VNode under action `a`, observation `o`. -/
def putChild : VTree σ → Nat → Nat → VTree σ → VTree σ
  | .node cnt tot bel qs, a, o, c =>
    match qs.get? a with
    | some q => .node cnt tot bel (qs.set a (q.1, q.2.1, setObs q.2.2 o c))
    | none => .node cnt tot bel qs

/-- Modelled from the spec: the back-up of one simulation return `R` —
`q.value.add(R)` on the chosen action's QNode together with
`vnode.value.add(R)` on the VNode itself. -/
def bump : VTree σ → Nat → ℚ → VTree σ
  | .node cnt tot bel qs, a, R =>
    match qs.get? a with
    | some q => .node (cnt + 1) (tot + R) bel (qs.set a (q.1 + 1, q.2.1 + R, q.2.2))
    | none => .node cnt tot bel qs

/-- Replace a VNode's belief. -/
def setBeliefT : VTree σ → List σ → VTree σ
  | .node c t _ qs, b => .node c t b qs

/-- Modelled from the spec: the simulator contract plus the engine options a
simulation needs (action count, depth bound, expand threshold, UCB constant
and exploration bonus shape, discount, the step function, the PGS hooks,
and the legal/preferred/PGS action generators). -/
structure SimParams (σ : Type) where
  numActions : Nat
  maxDepth : Nat
  expandCount : Nat
  c : ℚ
  bonus : Nat → Nat → ℚ
  discount : ℚ
  step : σ → Nat → σ × Nat × ℚ × Bool
  stepPGS : σ → Nat → σ × Nat × ℚ × Bool
  pgs : σ → ℚ
  legal : σ → List Nat
  preferred : σ → List Nat
  pgsPolicy : σ → List Nat
  usePGS : Bool

/-- Modelled from the spec: CELLAR::StepPGS (declared at src/cellar.h lines
104-105, body not in the sources) — a step whose reward is the potential
delta `Φ(state') - Φ(state)` instead of the environment reward. -/
def mkStepPGS (step : σ → Nat → σ × Nat × ℚ × Bool) (phi : σ → ℚ) :
    σ → Nat → σ × Nat × ℚ × Bool :=
  fun s a =>
    let r := step s a
    (r.1, r.2.1, phi r.1 - phi s, r.2.2.2)

/-- Modelled from the spec: the action set a rollout draws from — the PGS
rollout policy when `use_pgs` is set, otherwise preferred actions if any,
else the legal set, else the full action space. -/
def rolloutSet (P : SimParams σ) (s : σ) : List Nat :=
  if P.usePGS then P.pgsPolicy s
  else if P.preferred s ≠ [] then P.preferred s
  else if P.legal s ≠ [] then P.legal s
  else List.range P.numActions

/-- Modelled from the spec: the rollout trajectory — up to `fuel` steps, each
picking an action uniformly from the rollout action set and stepping through
the simulator (`stepPGS` when `use_pgs` is set, the plain step otherwise),
recording (state, action, next state, reward used) and stopping on a
terminal transition. -/
def rolloutTrace (P : SimParams σ) : Nat → σ → Nat → List (σ × Nat × σ × ℚ) × Nat
  | 0, _, g => ([], g)
  | fuel + 1, s, g =>
    let acts := rolloutSet P s
    if acts.isEmpty then ([], g)
    else
      let rb := randBelow g acts.length
      let a := acts.getD rb.1 0
      let r := (if P.usePGS then P.stepPGS else P.step) s a
      if r.2.2.2 then ([(s, a, r.1, r.2.2.1)], rb.2)
      else
        let rest := rolloutTrace P fuel r.1 rb.2
        ((s, a, r.1, r.2.2.1) :: rest.1, rest.2)

/-- Discounted accumulation of a reward sequence. -/
def discountedSum (γ : ℚ) : List ℚ → ℚ
  | [] => 0
  | r :: rest => r + γ * discountedSum γ rest

/-- Modelled from the spec: the rollout value — the discounted sum of the
rewards along the rollout trajectory. -/
def rollout (P : SimParams σ) (fuel : Nat) (s : σ) (g : Nat) : ℚ × Nat :=
  let tr := rolloutTrace P fuel s g
  (discountedSum P.discount (tr.1.map (fun e => e.2.2.2)), tr.2)

/-- Modelled from the spec: the recursive simulation `SimulateV` — stop past
the depth bound; roll out at an unexpanded leaf; otherwise select an action
by UCB, step the simulator, recurse into the (created-if-absent) child,
and back the return up into the chosen QNode and the VNode. -/
def simulateV (P : SimParams σ) : Nat → Nat → σ → VTree σ → Nat → VTree σ × ℚ × Nat
  | 0, _, _, t, g => (t, 0, g)
  | fuel + 1, depth, s, t, g =>
    if P.maxDepth < depth then (t, 0, g)
    else if t.cnt = 0 ∧ t.cnt < P.expandCount then
      let rr := rollout P (P.maxDepth - depth) s g
      (t, rr.1, rr.2)
    else
      let a := (ucbSelect P.c P.bonus t.cnt (qstats t)).getD 0
      let r := P.step s a
      let child := (getChild t a r.2.1).getD (newVNode P.numActions [])
      let rec1 := if r.2.2.2 then (child, 0, g)
        else simulateV P fuel (depth + 1) r.1 child g
      let R := r.2.2.1 + P.discount * rec1.2.1
      (bump (putChild t a r.2.1 rec1.1) a R, R, rec1.2.2)

/-- Modelled from the spec: run `n` independent simulations from the current
root, each from a particle drawn uniformly from the root belief (with a
fallback state when the belief is empty). -/
def runSims (P : SimParams σ) : Nat → σ → VTree σ → Nat → VTree σ × Nat
  | 0, _, t, g => (t, g)
  | n + 1, s0, t, g =>
    let gp := rngNext g
    let s := t.belief.getD (gp % max 1 t.belief.length) s0
    let r := simulateV P (P.maxDepth + 1) 0 s t gp
    runSims P n s0 r.1 r.2.2

/-- Modelled from the spec: SelectAction's final choice — the visited child of
the root with the largest mean among the admissible actions (the legal set
when nonempty, else the full action space), ties broken by visit count then
by the lowest action index; when no admissible child was visited, a uniform
random admissible action is returned instead. -/
def selectFromActs (acts : List Nat) (t : VTree σ) (g : Nat) : Nat × Nat :=
  match bestScan (fun p => (p.2.mean, p.2.count))
      (fun p => decide (p.2.count ≠ 0) && decide (p.1 ∈ acts)) (qstats t).enum none with
  | some (j, _) => (j, g)
  | none =>
    let r := randBelow g acts.length
    (acts.getD r.1 0, r.2)

def selectActionRoot (numActions : Nat) (legal : List Nat) (t : VTree σ) (g : Nat) :
    Nat × Nat :=
  selectFromActs (if legal = [] then List.range numActions else legal) t g

/-- Modelled from the spec: the engine options and simulator hooks that
`Update` and particle invigoration consume. -/
structure EngineCfg (σ : Type) where
  numActions : Nat
  reuseTree : Bool
  target : Nat
  maxAttempts : Nat
  localMove : List (Nat × Nat) → Nat → σ → Option σ
  createStartState : Nat → σ

/-- Modelled from the spec: a fresh root with a resampled belief — `target`
particles drawn from `create_start_state` and one zeroed QNode per action. -/
def freshRoot (cfg : EngineCfg σ) : VTree σ :=
  newVNode cfg.numActions ((List.range cfg.target).map cfg.createStartState)

/-- Modelled from the spec: the engine's mutable state — the history of
(action, observation) pairs, the root VNode, and the RNG state. -/
structure Engine (σ : Type) where
  history : List (Nat × Nat)
  root : VTree σ
  rng : Nat

/-- Modelled from the spec: the invigoration accept/reject loop — while the
belief is below its target and attempts remain, draw a particle uniformly,
run `local_move` on a copy, and add it on acceptance. Returns the final
belief, the RNG state, and the number of `local_move` trials performed. -/
def invigorateLoop (lm : σ → Option σ) (target : Nat) :
    Nat → Nat → List σ → List σ × Nat × Nat
  | 0, g, b => (b, g, 0)
  | fuel + 1, g, b =>
    if h : b.length < target ∧ b.length ≠ 0 then
      let g' := rngNext g
      let p := b.get ⟨g' % b.length, Nat.mod_lt _ (Nat.pos_of_ne_zero h.2)⟩
      match lm p with
      | some p' =>
        let r := invigorateLoop lm target fuel g' (b ++ [p'])
        (r.1, r.2.1, r.2.2 + 1)
      | none =>
        let r := invigorateLoop lm target fuel g' b
        (r.1, r.2.1, r.2.2 + 1)
    else (b, g, 0)

/-- Modelled from the spec: particle invigoration — the accept/reject loop
bounded by `max_attempts`, followed by a resample of `target` particles from
`create_start_state` when the belief came out empty. -/
def invigorate (lm : σ → Option σ) (start : Nat → σ) (target maxAttempts g : Nat)
    (b : List σ) : List σ × Nat :=
  let r := invigorateLoop lm target maxAttempts g b
  if r.1.length = 0 then ((List.range target).map start, r.2.1) else (r.1, r.2.1)

/-- Modelled from the spec: `Update(action, observation)` — append to the
history; promote the matching child to root when it exists and `reuse_tree`
is on, else rebuild a fresh root with a resampled belief; in both branches
invigorate the new root's belief. -/
def updateEngine (cfg : EngineCfg σ) (e : Engine σ) (a o : Nat) : Engine σ :=
  let h' := e.history ++ [(a, o)]
  let root1 :=
    if cfg.reuseTree then
      match getChild e.root a o with
      | some v => v
      | none => freshRoot cfg
    else freshRoot cfg
  let r := invigorate (cfg.localMove h' o) cfg.createStartState cfg.target
    cfg.maxAttempts e.rng root1.belief
  { history := h', root := setBeliefT root1 r.1, rng := r.2 }

/-- Modelled from the spec: one planner decision loop — run the simulation
budget, pick the root action, step the environment, and advance the engine
with `Update`; accumulates the chosen actions and the total reward. -/
def runEpisodeAux (P : SimParams σ) (cfg : EngineCfg σ) (numSims : Nat) (s0 : σ) :
    Nat → Engine σ → σ → List Nat × ℚ
  | 0, _, _ => ([], 0)
  | n + 1, e, env =>
    let r1 := runSims P numSims s0 e.root e.rng
    let sel := selectActionRoot P.numActions (P.legal env) r1.1 r1.2
    let st := P.step env sel.1
    let e2 := updateEngine cfg { history := e.history, root := r1.1, rng := sel.2 }
      sel.1 st.2.1
    let rest := runEpisodeAux P cfg numSims s0 n e2 st.1
    (sel.1 :: rest.1, st.2.2.1 + rest.2)

/-- Modelled from the spec: a full planner run as a function of the engine
seed and the simulator seed. -/
def runEpisode (P : SimParams σ) (cfg : EngineCfg σ) (numSims steps : Nat) (s0 : σ)
    (envOf : Nat → σ) (seed simSeed : Nat) : List Nat × ℚ :=
  runEpisodeAux P cfg numSims s0 steps
    { history := [], root := freshRoot cfg, rng := seed } (envOf simSeed)

/-- The tree-accounting invariant: at every VNode the stored visit count
equals the sum of its child QNodes' visit counts, recursively. -/
inductive WellCounted : VTree σ → Prop where
  | node {cnt : Nat} {tot : ℚ} {bel : List σ}
      {qs : List (Nat × ℚ × List (Option (VTree σ)))} :
      cnt = (qs.map (fun q => q.1)).sum →
      (∀ q ∈ qs, ∀ c ∈ q.2.2, ∀ t, c = some t → WellCounted t) →
      WellCounted (VTree.node cnt tot bel qs)

/-- Grid coordinate (src/coord.h, as consumed by cellar.h). -/
structure COORD where
  X : Int
  Y : Int
deriving DecidableEq, Repr

/-- CELLAR_STATE::ENTRY — per-bottle record (src/cellar.h lines 55-64). -/
structure ENTRY where
  Valuable : Bool
  Collected : Bool
  Count : Int
  Measured : Int
  LikelihoodValuable : ℚ
  LikelihoodWorthless : ℚ
  ProbValuable : ℚ
deriving DecidableEq, Repr

/-- CELLAR_STATE::OBJ_ENTRY — per-object record (src/cellar.h lines 67-79);
`AssumedType` is a field of this record; the C++ field `Type` is a reserved
word in Lean and is rendered `ObjType`. -/
structure OBJ_ENTRY where
  ObjPos : COORD
  ObjType : Int
  Count : Int
  Measured : Int
  LikelihoodCrate : ℚ
  LikelihoodShelf : ℚ
  ProbCrate : ℚ
  AssumedType : Int
  active : Bool := true
deriving DecidableEq, Repr

/-- CELLAR_STATE (src/cellar.h lines 50-84): the hidden state carries the
agent position, the bottles, the objects (with their assumed types), the
target, and the number of collected bottles. -/
structure CELLAR_STATE where
  AgentPos : COORD
  Bottles : List ENTRY
  Objects : List OBJ_ENTRY
  Target : Int
  CollectedBottles : Int
deriving DecidableEq, Repr

/-- Modelled from the spec: CELLAR::Copy (declared at src/cellar.h line 92,
body not in the sources) — the simulator contract's `copy(s)`, which
duplicates the whole hidden state, field by field, as a fresh particle. -/
def CELLAR.Copy (s : CELLAR_STATE) : CELLAR_STATE :=
  ⟨s.AgentPos, s.Bottles, s.Objects, s.Target, s.CollectedBottles⟩

/-- Overwrite object `i`'s assumed type inside one particle. -/
def setAssumedType (s : CELLAR_STATE) (i : Nat) (v : Int) : CELLAR_STATE :=
  { s with Objects := s.Objects.modify (fun o => { o with AssumedType := v }) i }

/-- Overwrite object `i`'s assumed type inside particle `p` of a belief. -/
def beliefSetAssumed (b : List CELLAR_STATE) (p i : Nat) (v : Int) :
    List CELLAR_STATE :=
  b.modify (fun s => setAssumedType s i v) p

/-- CELLAR_PARAMS (src/cellar.h lines 36-48). -/
structure CELLAR_PARAMS where
  problem : String := ""
  description : String := ""
  size : Int
  bottles : Int
  crates : Int
  shelves : Int
  discount : ℚ
  entropy : ℚ
deriving DecidableEq, Repr

/-- The default constructor CELLAR_PARAMS() (src/cellar.h lines 46-47). -/
def CELLAR_PARAMS.default : CELLAR_PARAMS :=
  { size := 5, bottles := 2, crates := 6, shelves := 4,
    discount := 95 / 100, entropy := 5 / 10 }

/-- Concrete root used to exercise the selection theorems: four actions with
(count, total) statistics (1,2), (1,3), (1,3), (0,9) — a mean tie and a
visit-count tie between actions 1 and 2, plus an unvisited action 3. -/
def exTree : VTree Nat :=
  .node 3 0 [] [(1, 2, []), (1, 3, []), (1, 3, []), (0, 9, [])]

def exStep : Nat → Nat → Nat × Nat × ℚ × Bool :=
  fun s a => (s + a + 1, (s + a) % 2, 1, false)

def exPhi : Nat → ℚ := fun s => (s : ℚ) * s

/-- Concrete simulator/engine parameters on `Nat` states, with the PGS step
hook built from `exStep` and the potential `exPhi`. -/
def exP : SimParams Nat :=
  { numActions := 2, maxDepth := 3, expandCount := 0, c := 1,
    bonus := fun _ _ => 0, discount := 1, step := exStep,
    stepPGS := mkStepPGS exStep exPhi, pgs := exPhi,
    legal := fun _ => [0, 1], preferred := fun _ => [],
    pgsPolicy := fun _ => [0, 1], usePGS := true }

def exCfg : EngineCfg Nat :=
  { numActions := 2, reuseTree := true, target := 1, maxAttempts := 3,
    localMove := fun _ _ _ => none, createStartState := fun n => n }

def exEngine : Engine Nat :=
  { history := [], root := VTree.node 0 0 [] [], rng := 0 }

/-- Concrete cellar hidden state with one object, used as a particle. -/
def exState : CELLAR_STATE :=
  { AgentPos := ⟨0, 0⟩, Bottles := [],
    Objects := [{ ObjPos := ⟨1, 1⟩, ObjType := 0, Count := 0, Measured := 0,
                  LikelihoodCrate := 0, LikelihoodShelf := 0, ProbCrate := 0,
                  AssumedType := 0, active := true }],
    Target := 0, CollectedBottles := 0 }

theorem keyLT_trans {a b c : ℚ × Nat} (h1 : keyLT a b) (h2 : keyLT b c) : keyLT a c := by
  rcases h1 with h1 | ⟨e1, l1⟩ <;> rcases h2 with h2 | ⟨e2, l2⟩
  · exact Or.inl (lt_trans h1 h2)
  · exact Or.inl (e2 ▸ h1)
  · exact Or.inl (e1 ▸ h2)
  · exact Or.inr ⟨e1.trans e2, lt_trans l1 l2⟩

theorem keyLT_resolve {a b : ℚ × Nat} (h : ¬ keyLT a b) : keyLT b a ∨ b = a := by
  unfold keyLT at h ⊢
  rcases lt_trichotomy b.1 a.1 with h1 | h1 | h1
  · exact Or.inl (Or.inl h1)
  · rcases lt_trichotomy b.2 a.2 with h2 | h2 | h2
    · exact Or.inl (Or.inr ⟨h1, h2⟩)
    · exact Or.inr (Prod.ext h1 h2)
    · exact absurd (Or.inr ⟨h1.symm, h2⟩) h
  · exact absurd (Or.inl h1) h

theorem mem_enumFrom_get? {α : Type} {l : List α} :
    ∀ {n j : Nat} {x : α}, (j, x) ∈ List.enumFrom n l → n ≤ j ∧ l.get? (j - n) = some x := by
  induction l with
  | nil => intro n j x h; simp [List.enumFrom] at h
  | cons a as ih =>
    intro n j x h
    rw [List.enumFrom_cons, List.mem_cons] at h
    rcases h with h | h
    · obtain ⟨h1, h2⟩ := Prod.mk.injEq .. ▸ h
      injection h with h1 h2
      subst h1; subst h2
      simp
    · obtain ⟨h1, h2⟩ := ih h
      refine ⟨le_trans (Nat.le_succ n) h1, ?_⟩
      have hj : j - n = (j - (n + 1)) + 1 := by omega
      rw [hj]
      simpa using h2

theorem get?_mem_enumFrom {α : Type} {l : List α} :
    ∀ {n j : Nat} {x : α}, l.get? j = some x → (n + j, x) ∈ List.enumFrom n l := by
  induction l with
  | nil => intro n j x h; simp at h
  | cons a as ih =>
    intro n j x h
    cases j with
    | zero =>
      simp at h
      subst h
      simp [List.enumFrom_cons]
    | succ k =>
      simp only [List.get?] at h
      have := ih (n := n + 1) h
      rw [List.enumFrom_cons, List.mem_cons]
      right
      have he : n + (k + 1) = n + 1 + k := by omega
      rw [he]
      exact this

theorem enumFrom_pairwise {α : Type} (l : List α) :
    ∀ n, (List.enumFrom n l).Pairwise (fun a b => a.1 < b.1) := by
  induction l with
  | nil => intro n; simp [List.enumFrom]
  | cons a as ih =>
    intro n
    rw [List.enumFrom_cons, List.pairwise_cons]
    refine ⟨?_, ih (n + 1)⟩
    intro p hp
    have := (mem_enumFrom_get? hp).1
    omega

theorem bestScan_go {α : Type} (key : Nat × α → ℚ × Nat) (pred : Nat × α → Bool) :
    ∀ (l : List (Nat × α)) (acc : Option (Nat × (ℚ × Nat))),
      l.Pairwise (fun x y => x.1 < y.1) →
      (∀ j k, acc = some (j, k) → ∀ p ∈ l, j < p.1) →
      ((bestScan key pred l acc = none → acc = none ∧ ∀ p ∈ l, pred p = false) ∧
        (∀ j k, bestScan key pred l acc = some (j, k) →
          ((acc = some (j, k) ∨ ∃ p, p ∈ l ∧ p.1 = j ∧ pred p = true ∧ key p = k) ∧
            (∀ p ∈ l, pred p = true → keyLT (key p) k ∨ (key p = k ∧ j ≤ p.1)) ∧
            (∀ j0 k0, acc = some (j0, k0) → keyLT k0 k ∨ (k0 = k ∧ j = j0))))) := by
  intro l
  induction l with
  | nil =>
    intro acc _ _
    constructor
    · intro h
      simp only [bestScan] at h
      exact ⟨h, by simp⟩
    · intro j k h
      simp only [bestScan] at h
      refine ⟨Or.inl h, by simp, ?_⟩
      intro j0 k0 h0
      rw [h0] at h
      injection h with h1
      injection h1 with h2 h3
      exact Or.inr ⟨h3, h2.symm⟩
  | cons p rest ih =>
    intro acc hpw hacc
    rw [List.pairwise_cons] at hpw
    obtain ⟨hhead, htail⟩ := hpw
    by_cases hp : pred p = true
    · cases acc with
      | none =>
        have hstep : bestScan key pred (p :: rest) none
            = bestScan key pred rest (some (p.1, key p)) := by
          simp only [bestScan, hp, if_true]
        have hacc' : ∀ j k, (some (p.1, key p) : Option (Nat × (ℚ × Nat))) = some (j, k) →
            ∀ q ∈ rest, j < q.1 := by
          intro j k h q hq
          injection h with h1
          injection h1 with h2 h3
          exact h2 ▸ hhead q hq
        obtain ⟨IH1, IH2⟩ := ih (some (p.1, key p)) htail hacc'
        rw [hstep]
        constructor
        · intro h
          exact absurd (IH1 h).1 (by simp)
        · intro j k h
          obtain ⟨B, C, D⟩ := IH2 j k h
          refine ⟨?_, ?_, ?_⟩
          · rcases B with B | ⟨q, hq, h1, h2, h3⟩
            · injection B with B1
              injection B1 with B2 B3
              exact Or.inr ⟨p, List.mem_cons_self p rest, B2, hp, B3⟩
            · exact Or.inr ⟨q, List.mem_cons_of_mem p hq, h1, h2, h3⟩
          · intro q hq hpq
            rcases List.mem_cons.mp hq with hq | hq
            · subst hq
              rcases D q.1 (key q) rfl with D' | ⟨D1, D2⟩
              · exact Or.inl D'
              · exact Or.inr ⟨D1, le_of_eq D2⟩
            · exact C q hq hpq
          · intro j0 k0 h0
            exact absurd h0 (by simp)
      | some a =>
        obtain ⟨j0, k0⟩ := a
        have haccrest : ∀ j k, (some (j0, k0) : Option (Nat × (ℚ × Nat))) = some (j, k) →
            ∀ q ∈ rest, j < q.1 := by
          intro j k h q hq
          injection h with h1
          injection h1 with h2 h3
          exact h2 ▸ hacc j0 k0 rfl q (List.mem_cons_of_mem p hq)
        have hj0p : j0 < p.1 := hacc j0 k0 rfl p (List.mem_cons_self p rest)
        by_cases hlt : keyLT k0 (key p)
        · have hstep : bestScan key pred (p :: rest) (some (j0, k0))
              = bestScan key pred rest (some (p.1, key p)) := by
            simp only [bestScan, hp, if_true, hlt, if_pos]
          have hacc' : ∀ j k, (some (p.1, key p) : Option (Nat × (ℚ × Nat))) = some (j, k) →
              ∀ q ∈ rest, j < q.1 := by
            intro j k h q hq
            injection h with h1
            injection h1 with h2 h3
            exact h2 ▸ hhead q hq
          obtain ⟨IH1, IH2⟩ := ih (some (p.1, key p)) htail hacc'
          rw [hstep]
          constructor
          · intro h
            exact absurd (IH1 h).1 (by simp)
          · intro j k h
            obtain ⟨B, C, D⟩ := IH2 j k h
            refine ⟨?_, ?_, ?_⟩
            · rcases B with B | ⟨q, hq, h1, h2, h3⟩
              · injection B with B1
                injection B1 with B2 B3
                exact Or.inr ⟨p, List.mem_cons_self p rest, B2, hp, B3⟩
              · exact Or.inr ⟨q, List.mem_cons_of_mem p hq, h1, h2, h3⟩
            · intro q hq hpq
              rcases List.mem_cons.mp hq with hq | hq
              · subst hq
                rcases D q.1 (key q) rfl with D' | ⟨D1, D2⟩
                · exact Or.inl D'
                · exact Or.inr ⟨D1, le_of_eq D2⟩
              · exact C q hq hpq
            · intro j1 k1 h1
              injection h1 with h1
              injection h1 with h2 h3
              rw [← h3]
              rcases D p.1 (key p) rfl with D' | ⟨D1, D2⟩
              · exact Or.inl (keyLT_trans hlt D')
              · exact Or.inl (by rw [← D1]; exact hlt)
        · have hstep : bestScan key pred (p :: rest) (some (j0, k0))
              = bestScan key pred rest (some (j0, k0)) := by
            simp only [bestScan, hp, if_true, hlt, if_neg, not_false_iff]
          obtain ⟨IH1, IH2⟩ := ih (some (j0, k0)) htail haccrest
          rw [hstep]
          constructor
          · intro h
            exact absurd (IH1 h).1 (by simp)
          · intro j k h
            obtain ⟨B, C, D⟩ := IH2 j k h
            refine ⟨?_, ?_, ?_⟩
            · rcases B with B | ⟨q, hq, h1, h2, h3⟩
              · exact Or.inl B
              · exact Or.inr ⟨q, List.mem_cons_of_mem p hq, h1, h2, h3⟩
            · intro q hq hpq
              rcases List.mem_cons.mp hq with hq | hq
              · subst hq
                rcases keyLT_resolve hlt with hle | heq
                · rcases D j0 k0 rfl with D' | ⟨D1, D2⟩
                  · exact Or.inl (keyLT_trans hle D')
                  · exact Or.inl (by rw [← D1]; exact hle)
                · rcases D j0 k0 rfl with D' | ⟨D1, D2⟩
                  · exact Or.inl (by rw [heq]; exact D')
                  · exact Or.inr ⟨heq.trans D1, by rw [D2]; exact le_of_lt hj0p⟩
              · exact C q hq hpq
            · intro j1 k1 h1
              injection h1 with h1
              injection h1 with h2 h3
              rw [← h3, ← h2]
              exact D j0 k0 rfl
    · have hpf : pred p = false := by
        cases hpb : pred p
        · rfl
        · exact absurd hpb hp
      have hstep : ∀ acc0, bestScan key pred (p :: rest) acc0 = bestScan key pred rest acc0 := by
        intro acc0
        simp only [bestScan, hpf]
        rfl
      have haccrest : ∀ j k, acc = some (j, k) → ∀ q ∈ rest, j < q.1 := by
        intro j k h q hq
        exact hacc j k h q (List.mem_cons_of_mem p hq)
      obtain ⟨IH1, IH2⟩ := ih acc htail haccrest
      rw [hstep]
      constructor
      · intro h
        obtain ⟨h1, h2⟩ := IH1 h
        refine ⟨h1, ?_⟩
        intro q hq
        rcases List.mem_cons.mp hq with hq | hq
        · exact hq ▸ hpf
        · exact h2 q hq
      · intro j k h
        obtain ⟨B, C, D⟩ := IH2 j k h
        refine ⟨?_, ?_, D⟩
        · rcases B with B | ⟨q, hq, h1, h2, h3⟩
          · exact Or.inl B
          · exact Or.inr ⟨q, List.mem_cons_of_mem p hq, h1, h2, h3⟩
        · intro q hq hpq
          rcases List.mem_cons.mp hq with hq | hq
          · exact absurd (hq ▸ hpq) (by rw [hpf]; simp)
          · exact C q hq hpq

theorem mem_enum_get {α : Type} {l : List α} {j : Nat} {x : α}
    (h : (j, x) ∈ l.enum) : l.get? j = some x := by
  have h2 := mem_enumFrom_get? (n := 0) (show (j, x) ∈ List.enumFrom 0 l from h)
  simpa using h2.2

theorem get_mem_enum {α : Type} {l : List α} {j : Nat} {x : α}
    (h : l.get? j = some x) : (j, x) ∈ l.enum := by
  have h2 := get?_mem_enumFrom (n := 0) h
  show (j, x) ∈ List.enumFrom 0 l
  simpa using h2

theorem enum_pairwise_fst {α : Type} (l : List α) :
    l.enum.Pairwise (fun a b => a.1 < b.1) :=
  enumFrom_pairwise l 0

theorem selectFromActs_visited_argmax {σ : Type} (acts : List Nat) (t : VTree σ)
    (g i : Nat) (h : (selectFromActs acts t g).1 = i)
    (hvis : ∃ j q, (qstats t).get? j = some q ∧ q.count ≠ 0 ∧ j ∈ acts) :
    ∃ q, (qstats t).get? i = some q ∧ q.count ≠ 0 ∧ i ∈ acts ∧
      ∀ j b, (qstats t).get? j = some b → b.count ≠ 0 → j ∈ acts →
        b.mean < q.mean ∨ (b.mean = q.mean ∧
          (b.count < q.count ∨ (b.count = q.count ∧ i ≤ j))) := by
  obtain ⟨main1, main2⟩ := bestScan_go (fun p : Nat × QStat => (p.2.mean, p.2.count))
    (fun p : Nat × QStat => decide (p.2.count ≠ 0) && decide (p.1 ∈ acts)) (qstats t).enum none
    (enum_pairwise_fst (qstats t)) (by intro j k hjk; simp at hjk)
  cases hE : bestScan (fun p : Nat × QStat => (p.2.mean, p.2.count))
      (fun p : Nat × QStat => decide (p.2.count ≠ 0) && decide (p.1 ∈ acts)) (qstats t).enum none with
  | none =>
    obtain ⟨j, q, hget, hcnt, hmem⟩ := hvis
    have hp : ((j, q) : Nat × QStat) ∈ (qstats t).enum := get_mem_enum hget
    have hfalse := (main1 hE).2 (j, q) hp
    simp [hcnt, hmem] at hfalse
  | some jk =>
    obtain ⟨j, k⟩ := jk
    have hres : (selectFromActs acts t g).1 = j := by
      simp only [selectFromActs]
      rw [hE]
    have hij : i = j := by rw [← h]; exact hres
    obtain ⟨B, C, _⟩ := main2 j k hE
    rcases B with B | ⟨⟨pj, pq⟩, hpmem, hp1, hppred, hpkey⟩
    · exact absurd B (by simp)
    · simp only at hp1
      have hget : (qstats t).get? i = some pq := by
        rw [hij, ← hp1]
        exact mem_enum_get hpmem
      simp only [Bool.and_eq_true, decide_eq_true_iff] at hppred
      refine ⟨pq, hget, hppred.1, ?_, ?_⟩
      · rw [hij, ← hp1]
        exact hppred.2
      · intro j2 b hb hbc hbacts
        have hbenum : ((j2, b) : Nat × QStat) ∈ (qstats t).enum := get_mem_enum hb
        have hbpred : (decide (((j2, b) : Nat × QStat).2.count ≠ 0)
            && decide (((j2, b) : Nat × QStat).1 ∈ acts)) = true := by
          simp [hbc, hbacts]
        have hCC := C (j2, b) hbenum hbpred
        rcases hCC with hlt | ⟨hkeq, hle⟩
        · rw [← hpkey] at hlt
          unfold keyLT at hlt
          rcases hlt with h1 | ⟨h1, h2⟩
          · exact Or.inl h1
          · exact Or.inr ⟨h1, Or.inl h2⟩
        · rw [← hpkey] at hkeq
          injection hkeq with e1 e2
          refine Or.inr ⟨e1, Or.inr ⟨e2, ?_⟩⟩
          rw [hij]
          exact hle

theorem selectFromActs_mem {σ : Type} (acts : List Nat) (t : VTree σ) (g : Nat)
    (hne : acts ≠ []) : (selectFromActs acts t g).1 ∈ acts := by
  obtain ⟨main1, main2⟩ := bestScan_go (fun p : Nat × QStat => (p.2.mean, p.2.count))
    (fun p : Nat × QStat => decide (p.2.count ≠ 0) && decide (p.1 ∈ acts)) (qstats t).enum none
    (enum_pairwise_fst (qstats t)) (by intro j k hjk; simp at hjk)
  cases hE : bestScan (fun p : Nat × QStat => (p.2.mean, p.2.count))
      (fun p : Nat × QStat => decide (p.2.count ≠ 0) && decide (p.1 ∈ acts)) (qstats t).enum none with
  | none =>
    have hlen : 0 < acts.length := List.length_pos.mpr hne
    have hres : (selectFromActs acts t g).1 = acts.getD (randBelow g acts.length).1 0 := by
      simp only [selectFromActs]
      rw [hE]
    have hidx : (randBelow g acts.length).1 < acts.length := by
      simp only [randBelow]
      exact Nat.mod_lt _ hlen
    rw [hres, List.getD_eq_get?, List.get?_eq_get hidx, Option.getD_some]
    exact List.get_mem acts _ hidx
  | some jk =>
    obtain ⟨j, k⟩ := jk
    have hres : (selectFromActs acts t g).1 = j := by
      simp only [selectFromActs]
      rw [hE]
    rw [hres]
    obtain ⟨B, _, _⟩ := main2 j k hE
    rcases B with B | ⟨⟨pj, pq⟩, _, hp1, hppred, _⟩
    · exact absurd B (by simp)
    · simp only at hp1
      simp only [Bool.and_eq_true, decide_eq_true_iff] at hppred
      exact hp1 ▸ hppred.2

/-- C1: for every engine state reached after the simulation budget, the
modelled `SelectAction` returns the action whose root QNode has the largest
mean among the visited children of the root; equal means are resolved by the
larger visit count, and full ties by the lower action index. -/
theorem selectAction_greedy_best {σ : Type} (numActions : Nat) (t : VTree σ)
    (g i : Nat) (hlen : (qstats t).length = numActions)
    (hvis : ∃ j q, (qstats t).get? j = some q ∧ q.count ≠ 0)
    (h : (selectActionRoot numActions [] t g).1 = i) :
    ∃ q, (qstats t).get? i = some q ∧ q.count ≠ 0 ∧
      ∀ j b, (qstats t).get? j = some b → b.count ≠ 0 →
        b.mean < q.mean ∨ (b.mean = q.mean ∧
          (b.count < q.count ∨ (b.count = q.count ∧ i ≤ j))) := by
  have hsel : (selectFromActs (List.range numActions) t g).1 = i := by
    simpa [selectActionRoot] using h
  obtain ⟨j, q, hget, hcnt⟩ := hvis
  have hjlt : j < numActions := by
    rw [← hlen]; exact (List.get?_eq_some.mp hget).1
  obtain ⟨q', hget', hcnt', _, hbest⟩ :=
    selectFromActs_visited_argmax (List.range numActions) t g i hsel
      ⟨j, q, hget, hcnt, List.mem_range.mpr hjlt⟩
  refine ⟨q', hget', hcnt', ?_⟩
  intro j2 b hb hbc
  have hj2 : j2 < numActions := by
    rw [← hlen]; exact (List.get?_eq_some.mp hb).1
  exact hbest j2 b hb hbc (List.mem_range.mpr hj2)

/-- C4: the modelled `SelectAction` always returns an action index inside
`[0, num_actions)`, and inside the legal set whenever that set is nonempty;
with no visited child it falls back to a uniform random admissible action
rather than failing. -/
theorem selectAction_action_space_bound {σ : Type} (numActions : Nat)
    (legal : List Nat) (t : VTree σ) (g : Nat) (hpos : 0 < numActions)
    (hsub : ∀ x ∈ legal, x < numActions) :
    (selectActionRoot numActions legal t g).1 < numActions ∧
      (legal ≠ [] → (selectActionRoot numActions legal t g).1 ∈ legal) := by
  by_cases hleg : legal = []
  · have hrw : selectActionRoot numActions legal t g
        = selectFromActs (List.range numActions) t g := by
      simp [selectActionRoot, hleg]
    have hne : List.range numActions ≠ [] := by
      intro hh
      rw [List.range_eq_nil] at hh
      omega
    constructor
    · rw [hrw]
      exact List.mem_range.mp (selectFromActs_mem (List.range numActions) t g hne)
    · intro hcon
      exact absurd hleg hcon
  · have hrw : selectActionRoot numActions legal t g = selectFromActs legal t g := by
      simp [selectActionRoot, hleg]
    have hmem := selectFromActs_mem legal t g hleg
    constructor
    · rw [hrw]
      exact hsub _ hmem
    · intro _
      rw [hrw]
      exact hmem

theorem firstUnvisited_some : ∀ (l : List QStat) (n i : Nat),
    firstUnvisited l n = some i →
      n ≤ i ∧ (∃ q, l.get? (i - n) = some q ∧ q.count = 0) ∧
        ∀ m b, m < i - n → l.get? m = some b → b.count ≠ 0 := by
  intro l
  induction l with
  | nil => intro n i h; simp [firstUnvisited] at h
  | cons q rest ih =>
    intro n i h
    by_cases hq : q.count = 0
    · simp [firstUnvisited, hq] at h
      subst h
      refine ⟨le_refl _, ⟨q, by simp, hq⟩, ?_⟩
      intro m b hm _
      omega
    · have h' : firstUnvisited rest (n + 1) = some i := by
        simpa [firstUnvisited, hq] using h
      obtain ⟨h1, ⟨b0, hb0, hb0c⟩, h3⟩ := ih (n + 1) i h'
      refine ⟨by omega, ?_, ?_⟩
      · refine ⟨b0, ?_, hb0c⟩
        have he : i - n = (i - (n + 1)) + 1 := by omega
        rw [he]
        simpa using hb0
      · intro m b hm hget
        cases m with
        | zero =>
          simp at hget
          rw [← hget]
          exact hq
        | succ m' =>
          have hg : rest.get? m' = some b := by simpa using hget
          exact h3 m' b (by omega) hg

theorem firstUnvisited_none : ∀ (l : List QStat) (n : Nat),
    firstUnvisited l n = none → ∀ q ∈ l, q.count ≠ 0 := by
  intro l
  induction l with
  | nil => intro n _ q hq; simp at hq
  | cons a rest ih =>
    intro n h q hq
    by_cases ha : a.count = 0
    · simp [firstUnvisited, ha] at h
    · have h' : firstUnvisited rest (n + 1) = none := by
        simpa [firstUnvisited, ha] using h
      rcases List.mem_cons.mp hq with hq | hq
      · rw [hq]; exact ha
      · exact ih (n + 1) h' q hq

/-- C3: the modelled UCB child selection prefers the first unvisited action in
declaration order; otherwise it returns the action maximizing
`mean + c * bonus(count v, count q)` (the abstract exploration term standing
for `c * sqrt(log(count v) / count q)`), with ties broken by the lowest
action index, and for `c = 0` this choice maximizes the mean alone. -/
theorem ucb_selection_spec (c : ℚ) (bonus : Nat → Nat → ℚ) (vc : Nat)
    (stats : List QStat) (i : Nat) (h : ucbSelect c bonus vc stats = some i) :
    (∃ q, stats.get? i = some q ∧ q.count = 0 ∧
        ∀ j b, stats.get? j = some b → b.count = 0 → i ≤ j) ∨
      ((∀ q ∈ stats, q.count ≠ 0) ∧
        ∃ q, stats.get? i = some q ∧
          (∀ j b, stats.get? j = some b →
            ucbScore c bonus vc b < ucbScore c bonus vc q ∨
              (ucbScore c bonus vc b = ucbScore c bonus vc q ∧ i ≤ j)) ∧
          (c = 0 → ∀ j b, stats.get? j = some b →
            b.mean < q.mean ∨ (b.mean = q.mean ∧ i ≤ j))) := by
  unfold ucbSelect at h
  cases hF : firstUnvisited stats 0 with
  | some i0 =>
    rw [hF] at h
    have hii : i0 = i := by simpa using h
    subst hii
    left
    obtain ⟨_, ⟨q, hq, hqc⟩, hmin⟩ := firstUnvisited_some stats 0 i0 hF
    refine ⟨q, by simpa using hq, hqc, ?_⟩
    intro j b hj hbc
    by_contra hlt
    push_neg at hlt
    exact hmin j b (by omega) hj hbc
  | none =>
    rw [hF] at h
    right
    refine ⟨firstUnvisited_none stats 0 hF, ?_⟩
    rw [Option.map_eq_some'] at h
    obtain ⟨⟨j, k⟩, hE, hji⟩ := h
    simp only at hji
    subst hji
    obtain ⟨main1, main2⟩ := bestScan_go
      (fun p : Nat × QStat => (ucbScore c bonus vc p.2, 0)) (fun _ => true)
      stats.enum none (enum_pairwise_fst stats) (by intro j k hjk; simp at hjk)
    obtain ⟨B, C, _⟩ := main2 j k hE
    rcases B with B | ⟨⟨pj, pq⟩, hpmem, hp1, _, hpkey⟩
    · exact absurd B (by simp)
    · simp only at hp1
      subst hp1
      have hget : stats.get? pj = some pq := mem_enum_get hpmem
      have hargmax : ∀ j2 b, stats.get? j2 = some b →
          ucbScore c bonus vc b < ucbScore c bonus vc pq ∨
            (ucbScore c bonus vc b = ucbScore c bonus vc pq ∧ pj ≤ j2) := by
        intro j2 b hb
        have hbenum : ((j2, b) : Nat × QStat) ∈ stats.enum := get_mem_enum hb
        have hCC := C (j2, b) hbenum rfl
        rcases hCC with hlt | ⟨hkeq, hle⟩
        · rw [← hpkey] at hlt
          unfold keyLT at hlt
          rcases hlt with h1 | ⟨_, h2⟩
          · exact Or.inl h1
          · exact absurd h2 (lt_irrefl 0)
        · rw [← hpkey] at hkeq
          injection hkeq with e1 _
          exact Or.inr ⟨e1, hle⟩
      refine ⟨pq, hget, hargmax, ?_⟩
      intro hc0 j2 b hb
      have := hargmax j2 b hb
      rw [hc0] at this
      simpa [ucbScore] using this

/-- Witness for the SelectAction greedy-choice theorem at the concrete root
`exTree`: action 1 wins the mean tie (3 vs 3) and the count tie against
action 2 by its lower index. -/
theorem selectAction_greedy_best_witness :
    ((qstats exTree).length = 4 ∧
        (∃ j q, (qstats exTree).get? j = some q ∧ q.count ≠ 0) ∧
        (selectActionRoot 4 [] exTree 0).1 = 1) ∧
      (∃ q, (qstats exTree).get? 1 = some q ∧ q.count ≠ 0 ∧
        ∀ j b, (qstats exTree).get? j = some b → b.count ≠ 0 →
          b.mean < q.mean ∨ (b.mean = q.mean ∧
            (b.count < q.count ∨ (b.count = q.count ∧ 1 ≤ j)))) := by
  have h1 : (qstats exTree).length = 4 := by decide
  have h2 : ∃ j q, (qstats exTree).get? j = some q ∧ q.count ≠ 0 :=
    ⟨0, _, rfl, by decide⟩
  have h3 : (selectActionRoot 4 [] exTree 0).1 = 1 := by
    norm_num [selectActionRoot, selectFromActs, bestScan, qstats, exTree, keyLT,
      VTree.qs, randBelow, rngNext]
  exact ⟨⟨h1, h2, h3⟩, selectAction_greedy_best 4 exTree 0 1 h1 h2 h3⟩

/-- Witness for the UCB selection theorem at the concrete root `exTree`: the
unvisited action 3 is preferred. -/
theorem ucb_selection_spec_witness :
    (ucbSelect 1 (fun _ _ => 0) 3 (qstats exTree) = some 3) ∧
      ((∃ q, (qstats exTree).get? 3 = some q ∧ q.count = 0 ∧
          ∀ j b, (qstats exTree).get? j = some b → b.count = 0 → 3 ≤ j) ∨
        ((∀ q ∈ qstats exTree, q.count ≠ 0) ∧
          ∃ q, (qstats exTree).get? 3 = some q ∧
            (∀ j b, (qstats exTree).get? j = some b →
              ucbScore 1 (fun _ _ => 0) 3 b < ucbScore 1 (fun _ _ => 0) 3 q ∨
                (ucbScore 1 (fun _ _ => 0) 3 b = ucbScore 1 (fun _ _ => 0) 3 q ∧
                  3 ≤ j)) ∧
            ((1 : ℚ) = 0 → ∀ j b, (qstats exTree).get? j = some b →
              b.mean < q.mean ∨ (b.mean = q.mean ∧ 3 ≤ j)))) :=
  ⟨by decide, ucb_selection_spec 1 (fun _ _ => 0) 3 (qstats exTree) 3 (by decide)⟩

/-- Witness for the action-space bound theorem: with 4 actions and legal set
`[2]`, the returned action is 2. -/
theorem selectAction_action_space_bound_witness :
    ((0 : Nat) < 4 ∧ (∀ x ∈ ([2] : List Nat), x < 4)) ∧
      ((selectActionRoot 4 [2] exTree 0).1 < 4 ∧
        (([2] : List Nat) ≠ [] → (selectActionRoot 4 [2] exTree 0).1 ∈ ([2] : List Nat))) :=
  ⟨⟨by decide, by decide⟩,
    selectAction_action_space_bound 4 [2] exTree 0 (by decide) (by decide)⟩

theorem setBeliefT_belief (t : VTree σ) (b : List σ) : (setBeliefT t b).belief = b := by
  cases t
  rfl

/-- C2: every `Update(action, observation)` appends the pair to the history;
when `reuse_tree` is on and the matching child exists that child is promoted
to the new root, otherwise a fresh root with a resampled belief replaces the
tree; and in both branches the promoted or fresh root's belief is passed
through `invigorate` with the extended history. The function is total, so a
missing child forces the rebuild branch rather than an error. -/
theorem update_semantics {σ : Type} (cfg : EngineCfg σ) (e : Engine σ) (a o : Nat) :
    (updateEngine cfg e a o).history = e.history ++ [(a, o)] ∧
      (∀ v, cfg.reuseTree = true → getChild e.root a o = some v →
        (updateEngine cfg e a o).root = setBeliefT v
          (invigorate (cfg.localMove (e.history ++ [(a, o)]) o) cfg.createStartState
            cfg.target cfg.maxAttempts e.rng v.belief).1) ∧
      ((cfg.reuseTree = false ∨ getChild e.root a o = none) →
        (updateEngine cfg e a o).root = setBeliefT (freshRoot cfg)
          (invigorate (cfg.localMove (e.history ++ [(a, o)]) o) cfg.createStartState
            cfg.target cfg.maxAttempts e.rng (freshRoot cfg).belief).1) := by
  refine ⟨rfl, ?_, ?_⟩
  · intro v hr hc
    simp [updateEngine, hr, hc]
  · intro h
    rcases h with h | h
    · simp [updateEngine, h]
    · by_cases hr : cfg.reuseTree
      · simp [updateEngine, hr, h]
      · simp [updateEngine, hr]

theorem invigorateLoop_trials {σ : Type} (lm : σ → Option σ) (target : Nat) :
    ∀ (fuel g : Nat) (b : List σ), (invigorateLoop lm target fuel g b).2.2 ≤ fuel := by
  intro fuel
  induction fuel with
  | zero => intro g b; simp [invigorateLoop]
  | succ n ih =>
    intro g b
    rw [invigorateLoop]
    by_cases h : b.length < target ∧ b.length ≠ 0
    · rw [dif_pos h]
      cases hlm : lm (b.get ⟨rngNext g % b.length, Nat.mod_lt _ (Nat.pos_of_ne_zero h.2)⟩) with
      | none =>
        simp only [hlm]
        exact Nat.succ_le_succ (ih _ _)
      | some p' =>
        simp only [hlm]
        exact Nat.succ_le_succ (ih _ _)
    · rw [dif_neg h]
      simp

theorem invigorateLoop_full {σ : Type} (lm : σ → Option σ) (target fuel g : Nat)
    (b : List σ) (h : ¬ b.length < target) :
    invigorateLoop lm target fuel g b = (b, g, 0) := by
  cases fuel with
  | zero => rfl
  | succ n =>
    rw [invigorateLoop, dif_neg]
    exact fun hc => h hc.1

/-- C5: particle invigoration performs at most `max_attempts` accept/reject
trials, so it terminates even when `local_move` never accepts; an empty
belief at the end of the loop is refilled with `target` fresh particles from
`create_start_state`; and after an `Update` whose observation has no
matching child (an observation impossible under every current particle),
the belief size equals the configured target again. -/
theorem invigoration_bounds {σ : Type} (lm : σ → Option σ) (start : Nat → σ)
    (target ma g : Nat) (b : List σ) (cfg : EngineCfg σ) (e : Engine σ) (a o : Nat)
    (h1 : getChild e.root a o = none) (h2 : 0 < cfg.target) :
    (invigorateLoop lm target ma g b).2.2 ≤ ma ∧
      ((invigorateLoop lm target ma g b).1 = [] →
        (invigorate lm start target ma g b).1 = (List.range target).map start) ∧
      (updateEngine cfg e a o).root.belief.length = cfg.target := by
  refine ⟨invigorateLoop_trials lm target ma g b, ?_, ?_⟩
  · intro hemp
    simp [invigorate, hemp]
  · have hlen : (freshRoot cfg).belief.length = cfg.target := by
      simp [freshRoot, newVNode, VTree.belief]
    have hfull : ¬ (freshRoot cfg).belief.length < cfg.target := by
      rw [hlen]
      omega
    have htz : cfg.target ≠ 0 := by omega
    have hloop := invigorateLoop_full (cfg.localMove (e.history ++ [(a, o)]) o)
      cfg.target cfg.maxAttempts e.rng (freshRoot cfg).belief hfull
    by_cases hr : cfg.reuseTree
    · simp [updateEngine, h1, hr, invigorate, hloop, setBeliefT_belief, hlen, htz]
    · simp [updateEngine, hr, invigorate, hloop, setBeliefT_belief, hlen, htz]

/-- Witness for the invigoration theorem: a rejecting `local_move`, target 1,
an engine whose root has no children, and update `(0, 0)`. -/
theorem invigoration_bounds_witness :
    (getChild exEngine.root 0 0 = none ∧ (0 : Nat) < exCfg.target) ∧
      ((invigorateLoop (fun _ => (none : Option Nat)) 1 2 0 []).2.2 ≤ 2 ∧
        ((invigorateLoop (fun _ => (none : Option Nat)) 1 2 0 []).1 = [] →
          (invigorate (fun _ => (none : Option Nat)) (fun n => n) 1 2 0 []).1
            = (List.range 1).map (fun n => n)) ∧
        (updateEngine exCfg exEngine 0 0).root.belief.length = exCfg.target) :=
  ⟨⟨rfl, by decide⟩,
    invigoration_bounds (fun _ => (none : Option Nat)) (fun n => n) 1 2 0 []
      exCfg exEngine 0 0 rfl (by decide)⟩

theorem wellCounted_inv {cnt : Nat} {tot : ℚ} {bel : List σ}
    {qs : List (Nat × ℚ × List (Option (VTree σ)))}
    (h : WellCounted (VTree.node cnt tot bel qs)) :
    cnt = (qs.map (fun q => q.1)).sum ∧
      ∀ q ∈ qs, ∀ c ∈ q.2.2, ∀ t, c = some t → WellCounted t := by
  cases h with
  | node h1 h2 => exact ⟨h1, h2⟩

theorem wellCounted_newVNode (n : Nat) (bel : List σ) :
    WellCounted (newVNode n bel) := by
  refine WellCounted.node ?_ ?_
  · simp [List.map_replicate]
  · intro q hq c hc t' ht'
    have hrep := List.eq_of_mem_replicate hq
    rw [hrep] at hc
    simp at hc

theorem wellCounted_getChild {t : VTree σ} {a o : Nat} {c : VTree σ}
    (ht : WellCounted t) (h : getChild t a o = some c) : WellCounted c := by
  cases t with
  | node cnt tot bel qs =>
    obtain ⟨_, h2⟩ := wellCounted_inv ht
    unfold getChild at h
    simp only [VTree.qs] at h
    cases hq : qs.get? a with
    | none =>
      rw [hq] at h
      simp at h
    | some q =>
      rw [hq] at h
      simp only [Option.some_bind] at h
      cases hc : q.2.2.get? o with
      | none =>
        rw [hc] at h
        simp at h
      | some copt =>
        rw [hc] at h
        simp at h
        exact h2 q (List.get?_mem hq) copt (List.get?_mem hc) c h

theorem mem_setObs {l : List (Option (VTree σ))} {o : Nat} {c : VTree σ}
    {x : Option (VTree σ)} (hx : x ∈ setObs l o c) : x ∈ l ∨ x = none ∨ x = some c := by
  unfold setObs at hx
  rcases List.mem_or_eq_of_mem_set hx with hx | hx
  · rcases List.mem_append.mp hx with hx | hx
    · exact Or.inl hx
    · exact Or.inr (Or.inl (List.eq_of_mem_replicate hx))
  · exact Or.inr (Or.inr hx)

theorem sum_map_set {α : Type} (f : α → Nat) :
    ∀ (l : List α) (n : Nat) (q x : α), l.get? n = some q →
      ((l.set n x).map f).sum + f q = (l.map f).sum + f x := by
  intro l
  induction l with
  | nil => intro n q x h; simp at h
  | cons y ys ih =>
    intro n q x h
    cases n with
    | zero =>
      simp at h
      subst h
      simp [List.set]
      omega
    | succ m =>
      simp only [List.get?] at h
      have h2 := ih m q x h
      simp only [List.set, List.map_cons, List.sum_cons]
      omega

theorem wellCounted_putChild {t : VTree σ} {a o : Nat} {c : VTree σ}
    (ht : WellCounted t) (hc : WellCounted c) : WellCounted (putChild t a o c) := by
  cases t with
  | node cnt tot bel qs =>
    obtain ⟨h1, h2⟩ := wellCounted_inv ht
    cases hq : qs.get? a with
    | none =>
      simp only [putChild, hq]
      exact ht
    | some q =>
      simp only [putChild, hq]
      refine WellCounted.node ?_ ?_
      · have hs := sum_map_set (fun p => p.1) qs a q (q.1, q.2.1, setObs q.2.2 o c) hq
        simp only at hs
        rw [h1]
        omega
      · intro p hp copt hcopt t' ht'
        rcases List.mem_or_eq_of_mem_set hp with hp | hp
        · exact h2 p hp copt hcopt t' ht'
        · subst hp
          rcases mem_setObs hcopt with hm | hm | hm
          · exact h2 q (List.get?_mem hq) copt hm t' ht'
          · rw [hm] at ht'
            simp at ht'
          · rw [hm] at ht'
            injection ht' with e
            rw [← e]
            exact hc

theorem wellCounted_bump {t : VTree σ} {a : Nat} {R : ℚ} (ht : WellCounted t) :
    WellCounted (bump t a R) := by
  cases t with
  | node cnt tot bel qs =>
    obtain ⟨h1, h2⟩ := wellCounted_inv ht
    cases hq : qs.get? a with
    | none =>
      simp only [bump, hq]
      exact ht
    | some q =>
      simp only [bump, hq]
      refine WellCounted.node ?_ ?_
      · have hs := sum_map_set (fun p => p.1) qs a q (q.1 + 1, q.2.1 + R, q.2.2) hq
        simp only at hs
        rw [h1]
        omega
      · intro p hp copt hcopt t' ht'
        rcases List.mem_or_eq_of_mem_set hp with hp | hp
        · exact h2 p hp copt hcopt t' ht'
        · subst hp
          exact h2 q (List.get?_mem hq) copt hcopt t' ht'

theorem wellCounted_simulateV (P : SimParams σ) :
    ∀ (fuel depth : Nat) (s : σ) (t : VTree σ) (g : Nat),
      WellCounted t → WellCounted (simulateV P fuel depth s t g).1 := by
  intro fuel
  induction fuel with
  | zero =>
    intro depth s t g ht
    simpa [simulateV] using ht
  | succ n ih =>
    intro depth s t g ht
    rw [simulateV]
    by_cases hd : P.maxDepth < depth
    · rw [if_pos hd]
      exact ht
    · rw [if_neg hd]
      by_cases hleaf : t.cnt = 0 ∧ t.cnt < P.expandCount
      · rw [if_pos hleaf]
        exact ht
      · rw [if_neg hleaf]
        refine wellCounted_bump (wellCounted_putChild ht ?_)
        by_cases hterm :
            (P.step s ((ucbSelect P.c P.bonus t.cnt (qstats t)).getD 0)).2.2.2 = true
        · rw [if_pos hterm]
          cases hgc : getChild t ((ucbSelect P.c P.bonus t.cnt (qstats t)).getD 0)
              (P.step s ((ucbSelect P.c P.bonus t.cnt (qstats t)).getD 0)).2.1 with
          | none => exact wellCounted_newVNode _ _
          | some cc => exact wellCounted_getChild ht hgc
        · rw [if_neg hterm]
          apply ih
          cases hgc : getChild t ((ucbSelect P.c P.bonus t.cnt (qstats t)).getD 0)
              (P.step s ((ucbSelect P.c P.bonus t.cnt (qstats t)).getD 0)).2.1 with
          | none => exact wellCounted_newVNode _ _
          | some cc => exact wellCounted_getChild ht hgc

theorem wellCounted_runSims (P : SimParams σ) :
    ∀ (n : Nat) (s0 : σ) (t : VTree σ) (g : Nat),
      WellCounted t → WellCounted (runSims P n s0 t g).1 := by
  intro n
  induction n with
  | zero => intro s0 t g ht; simpa [runSims] using ht
  | succ m ih =>
    intro s0 t g ht
    rw [runSims]
    exact ih s0 _ _ (wellCounted_simulateV P _ 0 _ t _ ht)

theorem wellCounted_setBeliefT {t : VTree σ} (b : List σ) (h : WellCounted t) :
    WellCounted (setBeliefT t b) := by
  cases t with
  | node cnt tot bel qs =>
    obtain ⟨h1, h2⟩ := wellCounted_inv h
    exact WellCounted.node h1 h2

theorem wellCounted_updateEngine (cfg : EngineCfg σ) (e : Engine σ) (a o : Nat)
    (h : WellCounted e.root) : WellCounted (updateEngine cfg e a o).root := by
  have hfresh : WellCounted (freshRoot cfg) := wellCounted_newVNode _ _
  by_cases hr : cfg.reuseTree
  · cases hgc : getChild e.root a o with
    | none =>
      simp only [updateEngine, hr, if_true, hgc]
      exact wellCounted_setBeliefT _ hfresh
    | some v =>
      simp only [updateEngine, hr, if_true, hgc]
      exact wellCounted_setBeliefT _ (wellCounted_getChild h hgc)
  · simp only [updateEngine, hr, if_false, Bool.false_eq_true]
    exact wellCounted_setBeliefT _ hfresh

/-- C6: at every VNode of the search tree, the stored visit count equals the
sum of the visit counts of its child QNodes, after any number of simulations
from a freshly initialized root, and the invariant survives `Update`. -/
theorem tree_accounting {σ : Type} (P : SimParams σ) (n : Nat) (s0 : σ)
    (bel : List σ) (g : Nat) :
    WellCounted (runSims P n s0 (newVNode P.numActions bel) g).1 ∧
      (∀ (cfg : EngineCfg σ) (e : Engine σ) (a o : Nat),
        WellCounted e.root → WellCounted (updateEngine cfg e a o).root) :=
  ⟨wellCounted_runSims P n s0 _ g (wellCounted_newVNode _ _),
    fun cfg e a o h => wellCounted_updateEngine cfg e a o h⟩

/-- C7: two planner runs with identical engine seeds and identical simulator
seeds, over the same configuration, produce the same action sequence and the
same total return — the modelled engine is a pure single-threaded function
of its seeds with no hidden source of nondeterminism. -/
theorem planner_deterministic {σ : Type} (P : SimParams σ) (cfg : EngineCfg σ)
    (numSims steps : Nat) (s0 : σ) (envOf : Nat → σ) (seed1 seed2 sim1 sim2 : Nat)
    (hseed : seed1 = seed2) (hsim : sim1 = sim2) :
    runEpisode P cfg numSims steps s0 envOf seed1 sim1
      = runEpisode P cfg numSims steps s0 envOf seed2 sim2 := by
  rw [hseed, hsim]

/-- Witness for determinism at concrete seeds 5 and 7. -/
theorem planner_deterministic_witness :
    ((5 : Nat) = 5 ∧ (7 : Nat) = 7) ∧
      runEpisode exP exCfg 1 2 0 (fun n => n) 5 7
        = runEpisode exP exCfg 1 2 0 (fun n => n) 5 7 :=
  ⟨⟨rfl, rfl⟩, planner_deterministic exP exCfg 1 2 0 (fun n => n) 5 5 7 7 rfl rfl⟩

/-- C8: with `use_pgs` set and the simulator's StepPGS hook built from the
potential `Φ` as the spec prescribes, every rollout step's reward increment
equals the potential delta `Φ(state') - Φ(state)` instead of the environment
reward; and the engine never computes `Φ` itself — the rollout trace is
invariant under replacing the simulator's raw potential field while the PGS
hooks are held fixed. -/
theorem pgs_rollout_potential_delta {σ : Type} (P : SimParams σ)
    (hpgs : P.usePGS = true) (hhook : P.stepPGS = mkStepPGS P.step P.pgs) :
    (∀ (fuel : Nat) (s : σ) (g : Nat), ∀ e ∈ (rolloutTrace P fuel s g).1,
        e.2.2.2 = P.pgs e.2.2.1 - P.pgs e.1 ∧ e.2.2.1 = (P.step e.1 e.2.1).1) ∧
      (∀ (phi : σ → ℚ) (fuel : Nat) (s : σ) (g : Nat),
        rolloutTrace { P with pgs := phi } fuel s g = rolloutTrace P fuel s g) := by
  constructor
  · intro fuel
    induction fuel with
    | zero =>
      intro s g e he
      simp [rolloutTrace] at he
    | succ n ih =>
      intro s g e he
      simp only [rolloutTrace] at he
      by_cases hacts : (rolloutSet P s).isEmpty
      · rw [if_pos hacts] at he
        simp at he
      · rw [if_neg hacts] at he
        simp only [hpgs, hhook, mkStepPGS, if_true] at he
        set a := (rolloutSet P s).getD (randBelow g (rolloutSet P s).length).1 0 with ha
        by_cases hterm : (P.step s a).2.2.2 = true
        · rw [if_pos hterm] at he
          simp at he
          subst he
          exact ⟨rfl, rfl⟩
        · rw [if_neg hterm] at he
          simp at he
          rcases he with he | he
          · subst he
            exact ⟨rfl, rfl⟩
          · exact ih _ _ e he
  · intro phi fuel
    induction fuel with
    | zero => intro s g; rfl
    | succ n ih =>
      intro s g
      simp only [rolloutTrace]
      rw [show rolloutSet { P with pgs := phi } s = rolloutSet P s from rfl, ih]

/-- Witness for the PGS rollout theorem at the concrete simulator `exP`. -/
theorem pgs_rollout_potential_delta_witness :
    (exP.usePGS = true ∧ exP.stepPGS = mkStepPGS exP.step exP.pgs) ∧
      ((∀ (fuel : Nat) (s g : Nat), ∀ e ∈ (rolloutTrace exP fuel s g).1,
          e.2.2.2 = exP.pgs e.2.2.1 - exP.pgs e.1 ∧ e.2.2.1 = (exP.step e.1 e.2.1).1) ∧
        (∀ (phi : Nat → ℚ) (fuel : Nat) (s g : Nat),
          rolloutTrace { exP with pgs := phi } fuel s g = rolloutTrace exP fuel s g)) :=
  ⟨⟨rfl, rfl⟩, pgs_rollout_potential_delta exP rfl rfl⟩

theorem get?_modify_ne {α : Type} (f : α → α) (l : List α) (p q : Nat)
    (h : p ≠ q) : (l.modify f p).get? q = l.get? q := by
  rw [List.get?_eq_getElem?, List.get?_eq_getElem?, List.getElem?_modify]
  cases hx : l[q]? with
  | none => rfl
  | some x => simp [h]

/-- C9: in the cellar domain the assumed type of each object is a field of
the OBJ_ENTRY record stored inside the hidden CELLAR_STATE itself, so `Copy`
duplicates the assumptions together with the rest of the particle, and
rewriting the assumption inside one particle of a belief leaves every other
particle untouched — assumptions are per-particle state that persists with
the particle, not engine-global storage reset per root. -/
theorem assumedType_per_particle (s : CELLAR_STATE) (b : List CELLAR_STATE)
    (p q i : Nat) (v : Int) (hpq : p ≠ q) :
    (CELLAR.Copy s).Objects.map (fun o => o.AssumedType)
        = s.Objects.map (fun o => o.AssumedType) ∧
      CELLAR.Copy s = s ∧
      (beliefSetAssumed b p i v).get? q = b.get? q := by
  refine ⟨rfl, rfl, ?_⟩
  exact get?_modify_ne _ b p q hpq

/-- Witness for the per-particle assumption theorem: rewriting particle 0 of
a two-particle belief leaves particle 1 unchanged. -/
theorem assumedType_per_particle_witness :
    (0 : Nat) ≠ 1 ∧
      ((CELLAR.Copy exState).Objects.map (fun o => o.AssumedType)
          = exState.Objects.map (fun o => o.AssumedType) ∧
        CELLAR.Copy exState = exState ∧
        (beliefSetAssumed [exState, exState] 0 0 5).get? 1
          = [exState, exState].get? 1) :=
  ⟨by decide, assumedType_per_particle exState [exState, exState] 0 1 0 5 (by decide)⟩

/-- C10: a default-constructed CELLAR_PARAMS has size 5, bottles 2, crates 6,
shelves 4, discount 0.95 and entropy 0.5, exactly as the header's default
constructor initializes them. -/
theorem cellar_params_default_values :
    CELLAR_PARAMS.default.size = 5 ∧ CELLAR_PARAMS.default.bottles = 2 ∧
      CELLAR_PARAMS.default.crates = 6 ∧ CELLAR_PARAMS.default.shelves = 4 ∧
      CELLAR_PARAMS.default.discount = 95 / 100 ∧
      CELLAR_PARAMS.default.entropy = 5 / 10 :=
  ⟨rfl, rfl, rfl, rfl, rfl, rfl⟩

end POMCP
